import Mathlib

/-!
Verification of the centerline distance module of
`src/scripts/analysis/rootlets.py`.

The module computes, from an ordered 3D centerline (a 3 x n numpy array, one
point per slice), a reference index (the PMJ projection) and voxel spacing,
the cumulative physical arc length from every centerline index up to the
reference index, and maps arbitrary query points to the distance of their
nearest centerline point (`get_distance_from_pmj`,
`find_nearest_centerline_index`, and their composition in
`center_of_mass_to_PMJ`).

Coordinates are modelled as real numbers.  Numpy array accesses are modelled
faithfully, including negative-index wrap-around, python slice semantics and
the shape check of `np.stack`; fallible operations return `Except NpError`.
-/

namespace Rootlets

/-- Errors raised by the underlying numpy operations: `indexError` for an
out-of-bounds array access, `valueError` for a shape mismatch in `np.stack`
or `np.argmin` on an empty array. -/
inductive NpError where
  | indexError : NpError
  | valueError : NpError
deriving DecidableEq, Repr

/-- Default point used with `List.getD` (never selected at in-bounds indices). -/
def d0 : ℝ × ℝ × ℝ := (0, 0, 0)

/-- Numpy index resolution on an axis of length `n`: an integer index `t` is
valid iff `-n ≤ t < n`; a negative `t` wraps to `n + t`.  Anything else
raises `IndexError`. -/
def npIdx (n : ℕ) (t : ℤ) : Except NpError ℕ :=
  if 0 ≤ t then
    if t < (n : ℤ) then .ok t.toNat else .error .indexError
  else
    if -(n : ℤ) ≤ t then .ok (t + (n : ℤ)).toNat else .error .indexError

/-- Read the point at integer index `t` of the 3 x n centerline array
(one access to each of the three rows at the same column in the source,
modelled as one access to the column). -/
def npGetPt (pts : List (ℝ × ℝ × ℝ)) (t : ℤ) : Except NpError (ℝ × ℝ × ℝ) :=
  match npIdx pts.length t with
  | .ok k => .ok (pts.getD k d0)
  | .error e => .error e

/-- Python slice `l[:k]` for an integer bound `k`: a negative bound counts
from the end; slicing never raises. -/
def pySliceTo (l : List ℝ) (k : ℤ) : List ℝ :=
  if 0 ≤ k then l.take k.toNat else l.take ((l.length : ℤ) + k).toNat

/-- Python `range(z, 0, -1)`: the descending list `[z, z-1, ..., 1]`,
empty when `z ≤ 0`. -/
def rangeDown (z : ℤ) : List ℤ :=
  (List.range z.toNat).reverse.map (fun k => (k : ℤ) + 1)

/-- One iteration body of the loop of `get_distance_from_pmj`: the scaled
3D Euclidean distance between centerline columns `i` and `i - 1`,
`sqrt(((x_i-x_{i-1})*px)^2 + ((y_i-y_{i-1})*py)^2 + ((z_i-z_{i-1})*pz)^2)`. -/
noncomputable def np_step (pts : List (ℝ × ℝ × ℝ)) (px py pz : ℝ) (i : ℤ) :
    Except NpError ℝ :=
  match npGetPt pts i with
  | .error e => .error e
  | .ok a =>
    match npGetPt pts (i - 1) with
    | .error e => .error e
    | .ok b =>
      .ok (Real.sqrt (((a.1 - b.1) * px) ^ 2 + ((a.2.1 - b.2.1) * py) ^ 2 +
        ((a.2.2 - b.2.2) * pz) ^ 2))

/-- The accumulation loop of `get_distance_from_pmj`:
`for i in range(z_index, 0, -1): length += distance; arr_length.append(length)`,
with `idxs` the remaining iteration indices, `length` the running total and
`acc` the list built so far. -/
noncomputable def arrLoop (pts : List (ℝ × ℝ × ℝ)) (px py pz : ℝ) :
    List ℤ → ℝ → List ℝ → Except NpError (List ℝ)
  | [], _, acc => .ok acc
  | i :: idxs, length, acc =>
    match np_step pts px py pz i with
    | .error e => .error e
    | .ok distance =>
      arrLoop pts px py pz idxs (length + distance) (acc ++ [length + distance])

/-- Embedding of `get_distance_from_pmj(centerline_points, z_index, px, py, pz)`:
run the backward accumulation loop starting from `arr_length = [0]`, reverse,
and stack the result with `centerline_points[2][:z_index + 1]` (the stack
raises `ValueError` when the two rows differ in length). -/
noncomputable def get_distance_from_pmj (pts : List (ℝ × ℝ × ℝ)) (z_index : ℤ)
    (px py pz : ℝ) : Except NpError (List ℝ × List ℝ) :=
  match arrLoop pts px py pz (rangeDown z_index) 0 [0] with
  | .error e => .error e
  | .ok arr =>
    let arr_rev := arr.reverse
    let row1 := pySliceTo (pts.map (fun p => p.2.2)) (z_index + 1)
    if arr_rev.length = row1.length then .ok (arr_rev, row1)
    else .error .valueError

/-- Raw (voxel-unit) Euclidean distance between a centerline point and the
query point, as computed by `np.linalg.norm(centerline_points.T - point, axis=1)`. -/
noncomputable def rawDist (p q : ℝ × ℝ × ℝ) : ℝ :=
  Real.sqrt ((p.1 - q.1) ^ 2 + (p.2.1 - q.2.1) ^ 2 + (p.2.2 - q.2.2) ^ 2)

/-- Scanning kernel of `np.argmin`: `bi` is the index of the current best
value `bv`, `i` the index of the head of the remaining list; the best is
updated only on a strictly smaller value, so the first minimum wins. -/
noncomputable def argminAux : List ℝ → ℕ → ℕ → ℝ → ℕ
  | [], _, bi, _ => bi
  | a :: rest, i, bi, bv =>
    if a < bv then argminAux rest (i + 1) i a else argminAux rest (i + 1) bi bv

/-- Embedding of `np.argmin` on a 1D float array: the position of the first
minimal element; raises `ValueError` on an empty array. -/
noncomputable def np_argmin : List ℝ → Except NpError ℕ
  | [] => .error .valueError
  | a :: rest => .ok (argminAux rest 1 0 a)

/-- Embedding of `find_nearest_centerline_index(point, centerline_points)`:
argmin over the raw Euclidean distances from each centerline point to the
query point. -/
noncomputable def find_nearest_centerline_index (point : ℝ × ℝ × ℝ)
    (pts : List (ℝ × ℝ × ℝ)) : Except NpError ℕ :=
  np_argmin (pts.map (fun p => rawDist p point))

/-- Embedding of the per-point lookup of `center_of_mass_to_PMJ`:
`nearest_centerline_index = find_nearest_centerline_index(point, centerline_array)`
followed by `dist_to_pmj = centerline_dist[0, nearest_centerline_index]`,
where `centerline_dist = get_distance_from_pmj(...)`. -/
noncomputable def center_of_mass_to_PMJ_lookup (pts : List (ℝ × ℝ × ℝ))
    (z_index : ℤ) (px py pz : ℝ) (point : ℝ × ℝ × ℝ) : Except NpError ℝ :=
  match get_distance_from_pmj pts z_index px py pz with
  | .error e => .error e
  | .ok table =>
    match find_nearest_centerline_index point pts with
    | .error e => .error e
    | .ok i =>
      match table.1.get? i with
      | some d => .ok d
      | none => .error .indexError

/-- Specification-side step distance between in-range centerline indices
`j` and `j - 1`, with the same formula as the loop body of
`get_distance_from_pmj`. -/
noncomputable def stepDist (pts : List (ℝ × ℝ × ℝ)) (px py pz : ℝ) (j : ℕ) : ℝ :=
  Real.sqrt ((((pts.getD j d0).1 - (pts.getD (j - 1) d0).1) * px) ^ 2 +
    (((pts.getD j d0).2.1 - (pts.getD (j - 1) d0).2.1) * py) ^ 2 +
    (((pts.getD j d0).2.2 - (pts.getD (j - 1) d0).2.2) * pz) ^ 2)

/-- Closed-form cumulative arc length from index `i` to the reference index
`z`: the sum of the step distances over `j = i+1, ..., z`. -/
noncomputable def cumDist (pts : List (ℝ × ℝ × ℝ)) (px py pz : ℝ) (z i : ℕ) : ℝ :=
  ∑ j in Finset.Ioc i z, stepDist pts px py pz j

/-- Coordinate axis of the 3D image grid (row 0, 1 or 2 of the centerline
array, with spacing component px, py or pz respectively). -/
inductive Axis where
  | x : Axis
  | y : Axis
  | z : Axis

/-- Two points agree on every coordinate other than the given axis. -/
def offAxesEqual : Axis → (ℝ × ℝ × ℝ) → (ℝ × ℝ × ℝ) → Prop
  | .x, p, q => p.2.1 = q.2.1 ∧ p.2.2 = q.2.2
  | .y, p, q => p.1 = q.1 ∧ p.2.2 = q.2.2
  | .z, p, q => p.1 = q.1 ∧ p.2.1 = q.2.1

/-- Voxel spacing with the component of the given axis doubled and the other
two components unchanged. -/
def doubleSpacing : Axis → ℝ → ℝ → ℝ → ℝ × ℝ × ℝ
  | .x, px, py, pz => (2 * px, py, pz)
  | .y, px, py, pz => (px, 2 * py, pz)
  | .z, px, py, pz => (px, py, 2 * pz)

/-- Point at integer position `k` on the given coordinate axis. -/
noncomputable def axisPt : Axis → ℕ → ℝ × ℝ × ℝ
  | .x, k => ((k : ℝ), 0, 0)
  | .y, k => (0, (k : ℝ), 0)
  | .z, k => (0, 0, (k : ℝ))

/-- Centerline of `N` collinear points spaced 1 apart along one axis. -/
noncomputable def unitLine (a : Axis) (N : ℕ) : List (ℝ × ℝ × ℝ) :=
  (List.range N).map (axisPt a)

/-- The example centerline of the specification:
`[(0,0,0), (0,0,1), (0,0,2), (0,0,3)]`. -/
noncomputable def pts4 : List (ℝ × ℝ × ℝ) := [(0, 0, 0), (0, 0, 1), (0, 0, 2), (0, 0, 3)]

/-- State-passing form of a call to `get_distance_from_pmj`: the Python body
only reads `centerline_points` (it never assigns into it and touches no
global), so the array store after the call is the store before it and the
result is the pure function of the passed contents. -/
noncomputable def get_distance_from_pmj_call (store : List (ℝ × ℝ × ℝ))
    (z_index : ℤ) (px py pz : ℝ) :
    Except NpError (List ℝ × List ℝ) × List (ℝ × ℝ × ℝ) :=
  (get_distance_from_pmj store z_index px py pz, store)

/-- State-passing form of a call to `find_nearest_centerline_index`; the
Python body only reads the array (`centerline_points.T - point` allocates a
fresh array), so the store is unchanged. -/
noncomputable def find_nearest_centerline_index_call (point : ℝ × ℝ × ℝ)
    (store : List (ℝ × ℝ × ℝ)) :
    Except NpError ℕ × List (ℝ × ℝ × ℝ) :=
  (find_nearest_centerline_index point store, store)

/-! ### Structural lemmas about the embedding -/

theorem npGetPt_natCast (pts : List (ℝ × ℝ × ℝ)) (k : ℕ) (hk : k < pts.length) :
    npGetPt pts (k : ℤ) = .ok (pts.getD k d0) := by
  have h0 : (0 : ℤ) ≤ (k : ℤ) := Int.natCast_nonneg k
  have h1 : (k : ℤ) < (pts.length : ℤ) := by exact_mod_cast hk
  simp [npGetPt, npIdx, h0, h1]

theorem np_step_natCast (pts : List (ℝ × ℝ × ℝ)) (px py pz : ℝ) (j : ℕ)
    (h1 : 1 ≤ j) (hj : j < pts.length) :
    np_step pts px py pz (j : ℤ) = .ok (stepDist pts px py pz j) := by
  have hcast : (j : ℤ) - 1 = ((j - 1 : ℕ) : ℤ) := by omega
  have hj' : j - 1 < pts.length := lt_of_le_of_lt (Nat.sub_le j 1) hj
  rw [np_step, hcast, npGetPt_natCast pts j hj, npGetPt_natCast pts (j - 1) hj']
  simp [stepDist]

theorem rangeDown_natCast_succ (m : ℕ) :
    rangeDown ((m + 1 : ℕ) : ℤ) = ((m + 1 : ℕ) : ℤ) :: rangeDown (m : ℤ) := by
  simp [rangeDown, List.range_succ]

theorem rangeDown_zero : rangeDown (0 : ℤ) = [] := by
  simp [rangeDown]

theorem arrLoop_eq (pts : List (ℝ × ℝ × ℝ)) (px py pz : ℝ) :
    ∀ (m : ℕ), m < pts.length → ∀ (L : ℝ) (acc : List ℝ),
      arrLoop pts px py pz (rangeDown (m : ℤ)) L acc =
        .ok (acc ++ (List.range m).map
          (fun t => L + ∑ j in Finset.Ioc (m - (t + 1)) m, stepDist pts px py pz j)) := by
  intro m
  induction m with
  | zero =>
    intro _ L acc
    simp [rangeDown_zero, arrLoop]
  | succ m ih =>
    intro hm L acc
    have hm' : m < pts.length := Nat.lt_of_succ_lt hm
    rw [rangeDown_natCast_succ]
    rw [arrLoop, np_step_natCast pts px py pz (m + 1) (Nat.succ_le_succ (Nat.zero_le m)) hm]
    dsimp only
    rw [ih hm' (L + stepDist pts px py pz (m + 1))
      (acc ++ [L + stepDist pts px py pz (m + 1)])]
    rw [Except.ok.injEq, List.range_succ_eq_map, List.map_cons, List.map_map,
      List.append_assoc, List.singleton_append]
    congr 1
    congr 1
    · have hmm : m + 1 - (0 + 1) = m := by omega
      simp only [hmm]
      rw [Finset.sum_Ioc_succ_top (le_refl m), Finset.Ioc_self,
        Finset.sum_empty, zero_add]
    · apply List.map_congr_left
      intro t _
      simp only [Function.comp_apply, Nat.succ_eq_add_one]
      have h2 : m + 1 - (t + 1 + 1) = m - (t + 1) := by omega
      rw [h2, Finset.sum_Ioc_succ_top (Nat.sub_le m (t + 1))]
      ring

theorem take_map_eq_range_map {α β : Type} (L : List α) (g : α → β) (dflt : α)
    (k : ℕ) (hk : k ≤ L.length) :
    (L.map g).take k = (List.range k).map (fun i => g (L.getD i dflt)) := by
  apply List.ext_getElem?
  intro n
  rw [List.getElem?_take]
  by_cases hn : n < k
  · have hnL : n < L.length := lt_of_lt_of_le hn hk
    rw [if_pos hn, List.getElem?_map, List.getElem?_map, List.getElem?_range hn,
      List.getElem?_eq_getElem hnL]
    simp only [Option.map_some']
    rw [List.getD_eq_getElem L dflt hnL]
  · rw [if_neg hn]
    symm
    apply List.getElem?_eq_none
    simp [Nat.le_of_not_lt hn]

theorem reverse_range (n : ℕ) :
    (List.range n).reverse = (List.range n).map (fun i => n - 1 - i) := by
  conv_lhs => rw [List.range_eq_range']
  rw [List.reverse_range']
  apply List.map_congr_left
  intro i _
  omega

theorem reverse_range_map {β : Type} (f : ℕ → β) (z : ℕ) :
    ((List.range (z + 1)).map (fun m => f (z - m))).reverse =
      (List.range (z + 1)).map f := by
  rw [← List.map_reverse, reverse_range, List.map_map]
  apply List.map_congr_left
  intro i hi
  have hi' : i < z + 1 := List.mem_range.mp hi
  simp only [Function.comp_apply]
  congr 1
  omega

/-- Master structure lemma: for an in-range reference index `z < n`, the
embedded `get_distance_from_pmj` succeeds and returns exactly the two-row
table whose row 0 at column `i` is the cumulative arc length from `i` to `z`
and whose row 1 at column `i` is the third coordinate of centerline point `i`. -/
theorem gd_natCast_eq_ok (pts : List (ℝ × ℝ × ℝ)) (px py pz : ℝ) (z : ℕ)
    (hz : z < pts.length) :
    get_distance_from_pmj pts (z : ℤ) px py pz =
      .ok ((List.range (z + 1)).map (fun i => cumDist pts px py pz z i),
           (List.range (z + 1)).map (fun i => (pts.getD i d0).2.2)) := by
  have harr := arrLoop_eq pts px py pz z hz 0 [0]
  have hrow0 : ([0] ++ (List.range z).map
      (fun t => 0 + ∑ j in Finset.Ioc (z - (t + 1)) z, stepDist pts px py pz j))
      = (List.range (z + 1)).map (fun m => cumDist pts px py pz z (z - m)) := by
    rw [List.range_succ_eq_map, List.map_cons, List.map_map, List.singleton_append]
    congr 1
    · rw [Nat.sub_zero, cumDist, Finset.Ioc_self, Finset.sum_empty]
    · apply List.map_congr_left
      intro t _
      simp only [Function.comp_apply, zero_add, cumDist, Nat.succ_eq_add_one]
  have hrev : ((List.range (z + 1)).map
      (fun m => cumDist pts px py pz z (z - m))).reverse
      = (List.range (z + 1)).map (fun i => cumDist pts px py pz z i) :=
    reverse_range_map (cumDist pts px py pz z) z
  have hslice : pySliceTo (pts.map (fun p => p.2.2)) ((z : ℤ) + 1)
      = (List.range (z + 1)).map (fun i => (pts.getD i d0).2.2) := by
    have h0 : (0 : ℤ) ≤ (z : ℤ) + 1 := by omega
    have ht : ((z : ℤ) + 1).toNat = z + 1 := by omega
    rw [pySliceTo, if_pos h0, ht,
      take_map_eq_range_map pts (fun p => p.2.2) d0 (z + 1) hz]
  rw [get_distance_from_pmj, harr]
  dsimp only
  rw [hrow0, hrev, hslice]
  simp

theorem getD_map (pts : List (ℝ × ℝ × ℝ)) (f : ℝ × ℝ × ℝ → ℝ) (j : ℕ)
    (hj : j < pts.length) :
    (pts.map f).getD j 0 = f (pts.getD j d0) := by
  rw [List.getD_eq_getElem _ _ (by simpa using hj), List.getD_eq_getElem _ _ hj,
    List.getElem_map]

theorem argminAux_spec (rest : List ℝ) : ∀ (i0 bi : ℕ) (bv : ℝ),
    (argminAux rest i0 bi bv = bi ∧ ∀ k, k < rest.length → bv ≤ rest.getD k 0) ∨
    (∃ k, k < rest.length ∧ argminAux rest i0 bi bv = i0 + k ∧
      rest.getD k 0 < bv ∧
      (∀ j, j < rest.length → rest.getD k 0 ≤ rest.getD j 0) ∧
      (∀ j, j < k → rest.getD k 0 < rest.getD j 0)) := by
  induction rest with
  | nil =>
    intro i0 bi bv
    left
    refine ⟨rfl, ?_⟩
    intro k hk
    simp at hk
  | cons a rest ih =>
    intro i0 bi bv
    simp only [argminAux]
    by_cases hab : a < bv
    · rw [if_pos hab]
      rcases ih (i0 + 1) i0 a with ⟨heq, hmin⟩ | ⟨k, hk, heq, hlt, hmin, hfirst⟩
      · right
        refine ⟨0, by simp, ?_, ?_, ?_, ?_⟩
        · rw [heq]; omega
        · simpa using hab
        · intro j hj
          cases j with
          | zero => simp
          | succ j =>
            simp only [List.getD_cons_zero, List.getD_cons_succ]
            exact hmin j (by simpa using hj)
        · intro j hj; omega
      · right
        refine ⟨k + 1, by simpa using hk, ?_, ?_, ?_, ?_⟩
        · rw [heq]; omega
        · simp only [List.getD_cons_succ]
          exact lt_trans hlt hab
        · intro j hj
          cases j with
          | zero =>
            simp only [List.getD_cons_succ, List.getD_cons_zero]
            exact le_of_lt hlt
          | succ j =>
            simp only [List.getD_cons_succ]
            exact hmin j (by simpa using hj)
        · intro j hj
          cases j with
          | zero =>
            simp only [List.getD_cons_succ, List.getD_cons_zero]
            exact hlt
          | succ j =>
            simp only [List.getD_cons_succ]
            exact hfirst j (by omega)
    · rw [if_neg hab]
      push_neg at hab
      rcases ih (i0 + 1) bi bv with ⟨heq, hmin⟩ | ⟨k, hk, heq, hlt, hmin, hfirst⟩
      · left
        refine ⟨heq, ?_⟩
        intro k hk
        cases k with
        | zero => simpa using hab
        | succ k =>
          simp only [List.getD_cons_succ]
          exact hmin k (by simpa using hk)
      · right
        refine ⟨k + 1, by simpa using hk, ?_, ?_, ?_, ?_⟩
        · rw [heq]; omega
        · simp only [List.getD_cons_succ]
          exact hlt
        · intro j hj
          cases j with
          | zero =>
            simp only [List.getD_cons_succ, List.getD_cons_zero]
            exact le_trans (le_of_lt hlt) hab
          | succ j =>
            simp only [List.getD_cons_succ]
            exact hmin j (by simpa using hj)
        · intro j hj
          cases j with
          | zero =>
            simp only [List.getD_cons_succ, List.getD_cons_zero]
            exact lt_of_lt_of_le hlt hab
          | succ j =>
            simp only [List.getD_cons_succ]
            exact hfirst j (by omega)

theorem np_argmin_spec (l : List ℝ) (hne : l ≠ []) :
    ∃ i, np_argmin l = .ok i ∧ i < l.length ∧
      (∀ j, j < l.length → l.getD i 0 ≤ l.getD j 0) ∧
      (∀ j, j < i → l.getD i 0 < l.getD j 0) := by
  match l, hne with
  | a :: rest, _ =>
    rcases argminAux_spec rest 1 0 a with ⟨heq, hmin⟩ | ⟨k, hk, heq, hlt, hmin, hfirst⟩
    · refine ⟨0, ?_, by simp, ?_, ?_⟩
      · rw [np_argmin, heq]
      · intro j hj
        cases j with
        | zero => simp
        | succ j =>
          simp only [List.getD_cons_zero, List.getD_cons_succ]
          exact hmin j (by simpa using hj)
      · intro j hj; omega
    · refine ⟨k + 1, ?_, by simpa using hk, ?_, ?_⟩
      · rw [np_argmin, heq, Nat.add_comm]
      · intro j hj
        cases j with
        | zero =>
          simp only [List.getD_cons_succ, List.getD_cons_zero]
          exact le_of_lt hlt
        | succ j =>
          simp only [List.getD_cons_succ]
          exact hmin j (by simpa using hj)
      · intro j hj
        cases j with
        | zero =>
          simp only [List.getD_cons_succ, List.getD_cons_zero]
          exact hlt
        | succ j =>
          simp only [List.getD_cons_succ]
          exact hfirst j (by omega)

theorem find_nearest_spec (point : ℝ × ℝ × ℝ) (pts : List (ℝ × ℝ × ℝ))
    (hne : pts ≠ []) :
    ∃ i, find_nearest_centerline_index point pts = .ok i ∧ i < pts.length ∧
      (∀ j, j < pts.length →
        rawDist (pts.getD i d0) point ≤ rawDist (pts.getD j d0) point) ∧
      (∀ j, j < i →
        rawDist (pts.getD i d0) point < rawDist (pts.getD j d0) point) := by
  have hne' : pts.map (fun p => rawDist p point) ≠ [] := by simpa using hne
  obtain ⟨i, heq, hlen, hmin, hfirst⟩ := np_argmin_spec _ hne'
  rw [List.length_map] at hlen
  refine ⟨i, ?_, hlen, ?_, ?_⟩
  · rw [find_nearest_centerline_index]; exact heq
  · intro j hj
    have h := hmin j (by simpa using hj)
    rwa [getD_map _ _ _ hlen, getD_map _ _ _ hj] at h
  · intro j hj
    have h := hfirst j hj
    rwa [getD_map _ _ _ hlen, getD_map _ _ _ (lt_trans hj hlen)] at h

theorem get?_map_range {β : Type} (f : ℕ → β) (k i : ℕ) (hi : i < k) :
    ((List.range k).map f).get? i = some (f i) := by
  rw [List.get?_eq_getElem?, List.getElem?_map, List.getElem?_range hi]
  rfl

theorem get?_map_range_none {β : Type} (f : ℕ → β) (k i : ℕ) (hi : k ≤ i) :
    ((List.range k).map f).get? i = none := by
  rw [List.get?_eq_getElem?]
  apply List.getElem?_eq_none
  simpa using hi

theorem stepDist_nonneg (pts : List (ℝ × ℝ × ℝ)) (px py pz : ℝ) (j : ℕ) :
    0 ≤ stepDist pts px py pz j :=
  Real.sqrt_nonneg _

theorem rawDist_third (c q : ℝ) : rawDist (0, 0, c) (0, 0, q) = |c - q| := by
  simp only [rawDist]
  rw [show ((0:ℝ) - 0) ^ 2 + ((0:ℝ) - 0) ^ 2 + (c - q) ^ 2 = (c - q) ^ 2 by ring]
  exact Real.sqrt_sq_eq_abs _

theorem rangeDown_nonpos (z : ℤ) (hz : z ≤ 0) : rangeDown z = [] := by
  simp [rangeDown, Int.toNat_eq_zero.mpr hz]

theorem sqrt_four_mul (s : ℝ) : Real.sqrt (4 * s ^ 2) = 2 * Real.sqrt (s ^ 2) := by
  rw [Real.sqrt_mul (by norm_num : (0:ℝ) ≤ 4) (s ^ 2),
    show (4:ℝ) = 2 ^ 2 by norm_num, Real.sqrt_sq (by norm_num : (0:ℝ) ≤ 2)]

theorem stepDist_doubleSpacing (pts : List (ℝ × ℝ × ℝ)) (px py pz : ℝ) (a : Axis)
    (j : ℕ) (h : offAxesEqual a (pts.getD j d0) (pts.getD (j - 1) d0)) :
    stepDist pts (doubleSpacing a px py pz).1 (doubleSpacing a px py pz).2.1
      (doubleSpacing a px py pz).2.2 j = 2 * stepDist pts px py pz j := by
  cases a with
  | x =>
    obtain ⟨e1, e2⟩ := h
    simp only [stepDist, doubleSpacing, e1, e2, sub_self, zero_mul]
    rw [zero_pow (by norm_num : (2:ℕ) ≠ 0), add_zero, add_zero]
    set u := (pts.getD j d0).1 - (pts.getD (j - 1) d0).1 with hu
    rw [show (u * (2 * px)) ^ 2 = 4 * (u * px) ^ 2 by ring, sqrt_four_mul]
    norm_num
  | y =>
    obtain ⟨e1, e2⟩ := h
    simp only [stepDist, doubleSpacing, e1, e2, sub_self, zero_mul]
    rw [zero_pow (by norm_num : (2:ℕ) ≠ 0), zero_add, add_zero]
    set u := (pts.getD j d0).2.1 - (pts.getD (j - 1) d0).2.1 with hu
    rw [show (u * (2 * py)) ^ 2 = 4 * (u * py) ^ 2 by ring, sqrt_four_mul]
    norm_num
  | z =>
    obtain ⟨e1, e2⟩ := h
    simp only [stepDist, doubleSpacing, e1, e2, sub_self, zero_mul]
    rw [zero_pow (by norm_num : (2:ℕ) ≠ 0), zero_add, zero_add]
    set u := (pts.getD j d0).2.2 - (pts.getD (j - 1) d0).2.2 with hu
    rw [show (u * (2 * pz)) ^ 2 = 4 * (u * pz) ^ 2 by ring, sqrt_four_mul]
    norm_num

theorem unitLine_length (a : Axis) (N : ℕ) : (unitLine a N).length = N := by
  simp [unitLine]

theorem unitLine_getD (a : Axis) (N j : ℕ) (hj : j < N) :
    (unitLine a N).getD j d0 = axisPt a j := by
  rw [unitLine, List.getD_eq_getElem _ _ (by simpa using hj), List.getElem_map]
  congr 1
  exact List.getElem_range _ _

theorem stepDist_unitLine (a : Axis) (N j : ℕ) (h1 : 1 ≤ j) (hj : j < N) :
    stepDist (unitLine a N) 1 1 1 j = 1 := by
  have hj' : j - 1 < N := by omega
  have hc : (j : ℝ) - ((j - 1 : ℕ) : ℝ) = 1 := by
    rw [Nat.cast_sub h1]
    ring
  simp only [stepDist, unitLine_getD a N j hj, unitLine_getD a N (j - 1) hj']
  cases a with
  | x =>
    simp only [axisPt]
    rw [hc]
    norm_num
  | y =>
    simp only [axisPt]
    rw [hc]
    norm_num
  | z =>
    simp only [axisPt]
    rw [hc]
    norm_num

theorem cumDist_unitLine (a : Axis) (N z i : ℕ) (hz : z < N) (hi : i ≤ z) :
    cumDist (unitLine a N) 1 1 1 z i = ((z - i : ℕ) : ℝ) := by
  have hstep : ∀ j ∈ Finset.Ioc i z, stepDist (unitLine a N) 1 1 1 j = 1 := by
    intro j hj
    rw [Finset.mem_Ioc] at hj
    exact stepDist_unitLine a N j (by omega) (by omega)
  rw [cumDist, Finset.sum_congr rfl hstep, Finset.sum_const, Nat.card_Ioc,
    nsmul_eq_mul, mul_one]

/-! ### Concrete evaluations on the example centerline -/

theorem stepDist_pts4 (j : ℕ) (h1 : 1 ≤ j) (h3 : j ≤ 3) :
    stepDist pts4 1 1 1 j = 1 := by
  interval_cases j <;> norm_num [stepDist, pts4, d0]

theorem row0_pts4_z3 :
    (List.range 4).map (fun i => cumDist pts4 1 1 1 3 i) = [3, 2, 1, 0] := by
  have h1 := stepDist_pts4 1 (by norm_num) (by norm_num)
  have h2 := stepDist_pts4 2 (by norm_num) (by norm_num)
  have h3 := stepDist_pts4 3 (by norm_num) (by norm_num)
  have hc0 : cumDist pts4 1 1 1 3 0 = 3 := by
    rw [cumDist, show Finset.Ioc 0 3 = ({1, 2, 3} : Finset ℕ) by decide,
      Finset.sum_insert (by decide), Finset.sum_insert (by decide),
      Finset.sum_singleton, h1, h2, h3]
    norm_num
  have hc1 : cumDist pts4 1 1 1 3 1 = 2 := by
    rw [cumDist, show Finset.Ioc 1 3 = ({2, 3} : Finset ℕ) by decide,
      Finset.sum_insert (by decide), Finset.sum_singleton, h2, h3]
    norm_num
  have hc2 : cumDist pts4 1 1 1 3 2 = 1 := by
    rw [cumDist, show Finset.Ioc 2 3 = ({3} : Finset ℕ) by decide,
      Finset.sum_singleton, h3]
  have hc3 : cumDist pts4 1 1 1 3 3 = 0 := by
    rw [cumDist, Finset.Ioc_self, Finset.sum_empty]
  rw [show List.range 4 = [0, 1, 2, 3] by decide]
  simp only [List.map_cons, List.map_nil, hc0, hc1, hc2, hc3]

theorem row1_pts4_z3 :
    (List.range 4).map (fun i => (pts4.getD i d0).2.2) = [0, 1, 2, 3] := by
  rw [show List.range 4 = [0, 1, 2, 3] by decide]
  simp [pts4, d0]

theorem gd_pts4_eval :
    get_distance_from_pmj pts4 3 1 1 1 = .ok ([3, 2, 1, 0], [0, 1, 2, 3]) := by
  have h := gd_natCast_eq_ok pts4 1 1 1 3 (by simp [pts4])
  rw [show ((3 : ℕ) : ℤ) = (3 : ℤ) by norm_num] at h
  rw [h, row0_pts4_z3, row1_pts4_z3]

theorem gd_pts4_z1_eval :
    get_distance_from_pmj pts4 1 1 1 1 = .ok ([1, 0], [0, 1]) := by
  have h := gd_natCast_eq_ok pts4 1 1 1 1 (by simp [pts4])
  rw [show ((1 : ℕ) : ℤ) = (1 : ℤ) by norm_num] at h
  rw [h]
  have hc0 : cumDist pts4 1 1 1 1 0 = 1 := by
    rw [cumDist, show Finset.Ioc 0 1 = ({1} : Finset ℕ) by decide,
      Finset.sum_singleton, stepDist_pts4 1 (by norm_num) (by norm_num)]
  have hc1 : cumDist pts4 1 1 1 1 1 = 0 := by
    rw [cumDist, Finset.Ioc_self, Finset.sum_empty]
  rw [show List.range 2 = [0, 1] by decide]
  simp only [List.map_cons, List.map_nil, hc0, hc1]
  norm_num [pts4, d0]

theorem fn_map_pts4 (q : ℝ × ℝ × ℝ) :
    pts4.map (fun p => rawDist p q) =
      [rawDist (0, 0, 0) q, rawDist (0, 0, 1) q,
       rawDist (0, 0, 2) q, rawDist (0, 0, 3) q] := by
  simp [pts4]

theorem fn_pts4_14_eval :
    find_nearest_centerline_index (0, 0, 1.4) pts4 = .ok 1 := by
  rw [find_nearest_centerline_index, fn_map_pts4]
  rw [rawDist_third, rawDist_third, rawDist_third, rawDist_third]
  rw [show |(0 : ℝ) - 1.4| = 1.4 by norm_num, show |(1 : ℝ) - 1.4| = 0.4 by norm_num,
    show |(2 : ℝ) - 1.4| = 0.6 by norm_num, show |(3 : ℝ) - 1.4| = 1.6 by norm_num]
  norm_num [np_argmin, argminAux]

theorem fn_pts4_3_eval :
    find_nearest_centerline_index (0, 0, 3) pts4 = .ok 3 := by
  rw [find_nearest_centerline_index, fn_map_pts4]
  rw [rawDist_third, rawDist_third, rawDist_third, rawDist_third]
  rw [show |(0 : ℝ) - 3| = 3 by norm_num, show |(1 : ℝ) - 3| = 2 by norm_num,
    show |(2 : ℝ) - 3| = 1 by norm_num, show |(3 : ℝ) - 3| = 0 by norm_num]
  norm_num [np_argmin, argminAux]

theorem gd_pts4_neg4_eval :
    get_distance_from_pmj pts4 (-4) 1 1 1 = .ok ([0], [0]) := by
  rw [get_distance_from_pmj, show rangeDown (-4) = [] by decide, arrLoop]
  have hslice : pySliceTo (pts4.map (fun p => p.2.2)) (-4 + 1) = [0] := by
    rw [pySliceTo, if_neg (by norm_num)]
    have hlen : ((pts4.map (fun p => p.2.2)).length : ℤ) = 4 := by simp [pts4]
    rw [hlen, show ((4 : ℤ) + (-4 + 1)).toNat = 1 by decide]
    simp [pts4]
  rw [hslice]
  rfl

/-! ### Error behaviour on malformed inputs -/

theorem gd_index_error (pts : List (ℝ × ℝ × ℝ)) (z : ℤ) (px py pz : ℝ)
    (h1 : 1 ≤ z) (h2 : (pts.length : ℤ) ≤ z) :
    get_distance_from_pmj pts z px py pz = .error .indexError := by
  obtain ⟨m, hm⟩ : ∃ m : ℕ, z = ((m + 1 : ℕ) : ℤ) := ⟨z.toNat - 1, by omega⟩
  subst hm
  rw [get_distance_from_pmj, rangeDown_natCast_succ, arrLoop]
  have hstep : np_step pts px py pz ((m + 1 : ℕ) : ℤ) = .error .indexError := by
    rw [np_step, npGetPt, npIdx, if_pos (by omega), if_neg (by omega)]
  rw [hstep]

theorem gd_empty_zero (px py pz : ℝ) :
    get_distance_from_pmj [] 0 px py pz = .error .valueError := by
  rw [get_distance_from_pmj, rangeDown_zero, arrLoop]
  simp [pySliceTo]

theorem gd_neg_value_error (pts : List (ℝ × ℝ × ℝ)) (z : ℤ) (px py pz : ℝ)
    (h1 : z < 0) (h2 : z ≠ -(pts.length : ℤ)) :
    get_distance_from_pmj pts z px py pz = .error .valueError := by
  rw [get_distance_from_pmj, rangeDown_nonpos z (by omega), arrLoop]
  have hlen : (pySliceTo (pts.map (fun p => p.2.2)) (z + 1)).length ≠ 1 := by
    rw [pySliceTo]
    by_cases hz1 : 0 ≤ z + 1
    · rw [if_pos hz1, show (z + 1).toNat = 0 by omega]
      simp
    · rw [if_neg hz1, List.length_take, List.length_map]
      omega
  dsimp only
  rw [if_neg (by simpa using fun h => hlen h.symm)]

theorem gd_single_neg_one (pts : List (ℝ × ℝ × ℝ)) (px py pz : ℝ)
    (hlen : pts.length = 1) :
    get_distance_from_pmj pts (-1) px py pz = .error .valueError := by
  rw [get_distance_from_pmj, rangeDown_nonpos (-1) (by omega), arrLoop]
  have hslice : pySliceTo (pts.map (fun p => p.2.2)) (-1 + 1) = [] := by
    rw [pySliceTo, if_pos (by norm_num)]
    simp
  rw [hslice]
  simp

theorem gd_neg_len_ok (pts : List (ℝ × ℝ × ℝ)) (px py pz : ℝ)
    (h2 : 2 ≤ pts.length) :
    get_distance_from_pmj pts (-(pts.length : ℤ)) px py pz =
      .ok ([0], [(pts.getD 0 d0).2.2]) := by
  rw [get_distance_from_pmj, rangeDown_nonpos _ (by omega), arrLoop]
  have hslice : pySliceTo (pts.map (fun p => p.2.2)) (-(pts.length : ℤ) + 1)
      = [(pts.getD 0 d0).2.2] := by
    rw [pySliceTo, if_neg (by omega), List.length_map,
      show ((pts.length : ℤ) + (-(pts.length : ℤ) + 1)).toNat = 1 by omega,
      take_map_eq_range_map pts _ d0 1 (by omega)]
    rw [show List.range 1 = [0] by decide]
    simp
  rw [hslice]
  rfl

/-! ### Claims -/

/-- C1: for every centerline, every in-range reference index `z` and every
voxel spacing, row 0 of `get_distance_from_pmj` assigns to each index
`i ≤ z` the sum over `j = i+1, ..., z` of
`sqrt(((x_j-x_{j-1})*px)^2 + ((y_j-y_{j-1})*py)^2 + ((z_j-z_{j-1})*pz)^2)`;
in particular the entry at `z` is 0, and on a centerline of `N` collinear
points spaced 1 apart along one axis with unit spacing the entry at `i`
is `|z - i|`. -/
theorem C1_cumulative_arc_length :
    (∀ (pts : List (ℝ × ℝ × ℝ)) (z : ℕ) (px py pz : ℝ), z < pts.length →
      ∃ row0 row1,
        get_distance_from_pmj pts (z : ℤ) px py pz = .ok (row0, row1) ∧
        (∀ i, i ≤ z →
          row0.get? i = some (∑ j in Finset.Ioc i z, stepDist pts px py pz j)) ∧
        row0.get? z = some 0) ∧
    (∀ (a : Axis) (N z i : ℕ), z < N → i ≤ z →
      ∃ row0 row1,
        get_distance_from_pmj (unitLine a N) (z : ℤ) 1 1 1 = .ok (row0, row1) ∧
        row0.get? i = some |(z : ℝ) - (i : ℝ)|) := by
  constructor
  · intro pts z px py pz hz
    refine ⟨_, _, gd_natCast_eq_ok pts px py pz z hz, ?_, ?_⟩
    · intro i hi
      rw [get?_map_range _ _ _ (by omega)]
      rfl
    · rw [get?_map_range _ _ _ (by omega)]
      simp [cumDist]
  · intro a N z i hzN hiz
    have hlen : z < (unitLine a N).length := by rw [unitLine_length]; exact hzN
    refine ⟨_, _, gd_natCast_eq_ok (unitLine a N) 1 1 1 z hlen, ?_⟩
    rw [get?_map_range _ _ _ (by omega), cumDist_unitLine a N z i hzN hiz]
    have habs : |(z : ℝ) - (i : ℝ)| = ((z - i : ℕ) : ℝ) := by
      rw [abs_of_nonneg (sub_nonneg.mpr (by exact_mod_cast hiz)), Nat.cast_sub hiz]
    rw [habs]

/-- Witness for C1 at the concrete example centerline with reference
index 3: the cumulative distance at the reference index itself is 0. -/
theorem C1_cumulative_arc_length_witness :
    3 < pts4.length ∧ ∃ row0 row1,
      get_distance_from_pmj pts4 ((3 : ℕ) : ℤ) 1 1 1 = .ok (row0, row1) ∧
      row0.get? 3 = some 0 :=
  ⟨by simp [pts4], by
    obtain ⟨row0, row1, h1, _, h3⟩ :=
      C1_cumulative_arc_length.1 pts4 3 1 1 1 (by simp [pts4])
    exact ⟨row0, row1, h1, h3⟩⟩

/-- C2: on the centerline `[(0,0,0), (0,0,1), (0,0,2), (0,0,3)]` with
reference index 3 and unit spacing, the cumulative distances are
`[3,2,1,0]` paired with slice coordinates `[0,1,2,3]`; the query point
`(0,0,1.4)` maps to nearest index 1, and the composed lookup reports
distance 2. -/
theorem C2_end_to_end_example :
    get_distance_from_pmj pts4 3 1 1 1 = .ok ([3, 2, 1, 0], [0, 1, 2, 3]) ∧
    find_nearest_centerline_index (0, 0, 1.4) pts4 = .ok 1 ∧
    center_of_mass_to_PMJ_lookup pts4 3 1 1 1 (0, 0, 1.4) = .ok 2 := by
  refine ⟨gd_pts4_eval, fn_pts4_14_eval, ?_⟩
  rw [center_of_mass_to_PMJ_lookup, gd_pts4_eval]
  dsimp only
  rw [fn_pts4_14_eval]
  rfl

/-- C3: for every non-empty centerline and every query point,
`find_nearest_centerline_index` returns an in-range index whose raw
Euclidean distance to the query point is minimal, strictly smaller than at
every earlier index (first minimal element in array order); when the query
point equals centerline point 0 it returns index 0. -/
theorem C3_nearest_index (point : ℝ × ℝ × ℝ) (pts : List (ℝ × ℝ × ℝ))
    (hne : pts ≠ []) :
    ∃ i, find_nearest_centerline_index point pts = .ok i ∧ i < pts.length ∧
      (∀ j, j < pts.length →
        rawDist (pts.getD i d0) point ≤ rawDist (pts.getD j d0) point) ∧
      (∀ j, j < i →
        rawDist (pts.getD i d0) point < rawDist (pts.getD j d0) point) ∧
      (point = pts.getD 0 d0 → i = 0) := by
  obtain ⟨i, heq, hlen, hmin, hfirst⟩ := find_nearest_spec point pts hne
  refine ⟨i, heq, hlen, hmin, hfirst, ?_⟩
  intro hq
  by_contra hi0
  have h0 : 0 < i := Nat.pos_of_ne_zero hi0
  have hlt := hfirst 0 h0
  have hz : rawDist (pts.getD 0 d0) point = 0 := by
    rw [hq]
    simp [rawDist]
  rw [hz] at hlt
  have hge : 0 ≤ rawDist (pts.getD i d0) point := Real.sqrt_nonneg _
  linarith

/-- Witness for C3 at the example centerline and query point `(0,0,1.4)`. -/
theorem C3_nearest_index_witness :
    pts4 ≠ [] ∧
    ∃ i, find_nearest_centerline_index (0, 0, 1.4) pts4 = .ok i ∧
      i < pts4.length ∧
      (∀ j, j < pts4.length →
        rawDist (pts4.getD i d0) (0, 0, 1.4) ≤ rawDist (pts4.getD j d0) (0, 0, 1.4)) ∧
      (∀ j, j < i →
        rawDist (pts4.getD i d0) (0, 0, 1.4) < rawDist (pts4.getD j d0) (0, 0, 1.4)) ∧
      ((0, 0, 1.4) = pts4.getD 0 d0 → i = 0) :=
  ⟨by simp [pts4], C3_nearest_index (0, 0, 1.4) pts4 (by simp [pts4])⟩

/-- C4: when adjacent centerline points differ only along one fixed axis,
doubling that axis's voxel spacing component exactly doubles every
cumulative distance in row 0 (row 1 is unchanged). -/
theorem C4_axis_spacing_scaling (pts : List (ℝ × ℝ × ℝ)) (z : ℕ)
    (px py pz : ℝ) (a : Axis) (hz : z < pts.length)
    (hpx : 0 < px) (hpy : 0 < py) (hpz : 0 < pz)
    (hax : ∀ j, 1 ≤ j → j < pts.length →
      offAxesEqual a (pts.getD j d0) (pts.getD (j - 1) d0)) :
    ∃ row0 row1,
      get_distance_from_pmj pts (z : ℤ) px py pz = .ok (row0, row1) ∧
      get_distance_from_pmj pts (z : ℤ) (doubleSpacing a px py pz).1
        (doubleSpacing a px py pz).2.1 (doubleSpacing a px py pz).2.2 =
        .ok (row0.map (fun v => 2 * v), row1) := by
  refine ⟨_, _, gd_natCast_eq_ok pts px py pz z hz, ?_⟩
  rw [gd_natCast_eq_ok pts (doubleSpacing a px py pz).1
    (doubleSpacing a px py pz).2.1 (doubleSpacing a px py pz).2.2 z hz]
  rw [Except.ok.injEq, Prod.mk.injEq]
  refine ⟨?_, rfl⟩
  rw [List.map_map]
  apply List.map_congr_left
  intro i _
  simp only [Function.comp_apply, cumDist, Finset.mul_sum]
  apply Finset.sum_congr rfl
  intro j hj
  rw [Finset.mem_Ioc] at hj
  exact stepDist_doubleSpacing pts px py pz a j (hax j (by omega) (by omega))

/-- Witness for C4: the example centerline moves only along the third axis,
and doubling the third spacing component doubles row 0. -/
theorem C4_axis_spacing_scaling_witness :
    3 < pts4.length ∧ ∃ row0 row1,
      get_distance_from_pmj pts4 ((3 : ℕ) : ℤ) 1 1 1 = .ok (row0, row1) ∧
      get_distance_from_pmj pts4 ((3 : ℕ) : ℤ) (doubleSpacing Axis.z 1 1 1).1
        (doubleSpacing Axis.z 1 1 1).2.1 (doubleSpacing Axis.z 1 1 1).2.2 =
        .ok (row0.map (fun v => 2 * v), row1) :=
  ⟨by simp [pts4],
    C4_axis_spacing_scaling pts4 3 1 1 1 Axis.z (by simp [pts4])
      one_pos one_pos one_pos (by
        intro j h1 hj
        simp only [pts4, List.length_cons, List.length_nil] at hj
        interval_cases j <;> simp [offAxesEqual, pts4, d0])⟩

/-- C5: for every non-empty centerline, reference index 0 yields the
single-entry table with distance value 0 (in particular this covers every
centerline of length 1, whose only valid reference index is 0). -/
theorem C5_reference_index_zero (pts : List (ℝ × ℝ × ℝ)) (px py pz : ℝ)
    (hne : pts ≠ []) :
    get_distance_from_pmj pts 0 px py pz =
      .ok ([0], [(pts.getD 0 d0).2.2]) := by
  have hz : 0 < pts.length := List.length_pos.mpr hne
  have h := gd_natCast_eq_ok pts px py pz 0 hz
  rw [show ((0 : ℕ) : ℤ) = (0 : ℤ) by norm_num] at h
  rw [h, show List.range 1 = [0] by decide]
  simp [cumDist]

/-- Witness for C5 at the example centerline. -/
theorem C5_reference_index_zero_witness :
    pts4 ≠ [] ∧
    get_distance_from_pmj pts4 0 1 1 1 = .ok ([0], [(pts4.getD 0 d0).2.2]) :=
  ⟨by simp [pts4], C5_reference_index_zero pts4 1 1 1 (by simp [pts4])⟩

/-- C6: for an in-range reference index `z`, the result is a two-row table
of exactly `z + 1` columns ordered by increasing centerline index, whose
row 1 holds the third-axis coordinate of each centerline point up to `z`;
no column exists beyond the reference index. -/
theorem C6_table_shape (pts : List (ℝ × ℝ × ℝ)) (z : ℕ) (px py pz : ℝ)
    (hz : z < pts.length) :
    ∃ row0 row1,
      get_distance_from_pmj pts (z : ℤ) px py pz = .ok (row0, row1) ∧
      row0.length = z + 1 ∧ row1.length = z + 1 ∧
      (∀ i, i ≤ z → row1.get? i = some (pts.getD i d0).2.2) ∧
      (∀ i, z < i → row0.get? i = none ∧ row1.get? i = none) := by
  refine ⟨_, _, gd_natCast_eq_ok pts px py pz z hz, by simp, by simp, ?_, ?_⟩
  · intro i hi
    rw [get?_map_range _ _ _ (by omega)]
  · intro i hi
    exact ⟨get?_map_range_none _ _ _ (by omega),
      get?_map_range_none _ _ _ (by omega)⟩

/-- Witness for C6 at the example centerline with reference index 3. -/
theorem C6_table_shape_witness :
    3 < pts4.length ∧ ∃ row0 row1,
      get_distance_from_pmj pts4 ((3 : ℕ) : ℤ) 1 1 1 = .ok (row0, row1) ∧
      row0.length = 3 + 1 ∧ row1.length = 3 + 1 ∧
      (∀ i, i ≤ 3 → row1.get? i = some (pts4.getD i d0).2.2) ∧
      (∀ i, 3 < i → row0.get? i = none ∧ row1.get? i = none) :=
  ⟨by simp [pts4], C6_table_shape pts4 3 1 1 1 (by simp [pts4])⟩

/-- C7 counterexample: the reference index -4 is out of bounds for the
4-point example centerline (it does not satisfy `0 ≤ index`), yet
`get_distance_from_pmj` returns a value instead of raising an error —
the backward `range` is empty and the numpy slice `[2][:-3]` happens to
have length 1, matching the accumulator `[0]`. -/
theorem C7_counterexample :
    ¬ (0 : ℤ) ≤ -4 ∧ get_distance_from_pmj pts4 (-4) 1 1 1 = .ok ([0], [0]) :=
  ⟨by decide, gd_pts4_neg4_eval⟩

/-- C7 (amended): `get_distance_from_pmj` performs no explicit error
handling.  A reference index that is at least the centerline length (and at
least 1) raises `IndexError` on the first out-of-bounds access; index 0 on
an empty centerline raises `ValueError` at the `np.stack` shape check; a
negative reference index other than `-length` raises `ValueError` at the
stack step, and `-1` on a length-1 centerline likewise; but a reference
index equal to `-length` on a centerline of length at least 2 silently
returns a single-entry table instead of raising. -/
theorem C7_malformed_inputs_amended :
    (∀ (pts : List (ℝ × ℝ × ℝ)) (z : ℤ) (px py pz : ℝ),
      1 ≤ z → (pts.length : ℤ) ≤ z →
      get_distance_from_pmj pts z px py pz = .error .indexError) ∧
    (∀ px py pz : ℝ,
      get_distance_from_pmj [] 0 px py pz = .error .valueError) ∧
    (∀ (pts : List (ℝ × ℝ × ℝ)) (z : ℤ) (px py pz : ℝ),
      z < 0 → z ≠ -(pts.length : ℤ) →
      get_distance_from_pmj pts z px py pz = .error .valueError) ∧
    (∀ (pts : List (ℝ × ℝ × ℝ)) (px py pz : ℝ), pts.length = 1 →
      get_distance_from_pmj pts (-1) px py pz = .error .valueError) ∧
    (∀ (pts : List (ℝ × ℝ × ℝ)) (px py pz : ℝ), 2 ≤ pts.length →
      ∃ v, get_distance_from_pmj pts (-(pts.length : ℤ)) px py pz =
        .ok ([0], [v])) :=
  ⟨gd_index_error, gd_empty_zero, gd_neg_value_error, gd_single_neg_one,
    fun pts px py pz h => ⟨_, gd_neg_len_ok pts px py pz h⟩⟩

/-- Witness for the amended C7: reference index 5 on the 4-point example
centerline raises `IndexError`. -/
theorem C7_malformed_inputs_amended_witness :
    get_distance_from_pmj pts4 5 1 1 1 = .error .indexError :=
  C7_malformed_inputs_amended.1 pts4 5 1 1 1 (by norm_num) (by simp [pts4])

/-- C8: the composed lookup of `center_of_mass_to_PMJ` indexes the
cumulative-distance table (of `z + 1` columns) at the nearest centerline
index found over the full centerline, so it goes out of bounds for a query
point whose nearest index exceeds the reference index (concretely: query
`(0,0,3)` with reference index 1 on the example centerline), and it is
in bounds exactly when the nearest index is at most the reference index. -/
theorem C8_lookup_bounds :
    (∃ i, find_nearest_centerline_index (0, 0, 3) pts4 = .ok i ∧ 1 < i ∧
      center_of_mass_to_PMJ_lookup pts4 1 1 1 1 (0, 0, 3) =
        .error .indexError) ∧
    (∀ (pts : List (ℝ × ℝ × ℝ)) (z : ℕ) (px py pz : ℝ) (point : ℝ × ℝ × ℝ)
      (i : ℕ), z < pts.length →
      find_nearest_centerline_index point pts = .ok i →
      ((∃ d, center_of_mass_to_PMJ_lookup pts (z : ℤ) px py pz point = .ok d)
        ↔ i ≤ z)) := by
  constructor
  · refine ⟨3, fn_pts4_3_eval, by norm_num, ?_⟩
    rw [center_of_mass_to_PMJ_lookup, gd_pts4_z1_eval]
    dsimp only
    rw [fn_pts4_3_eval]
    rfl
  · intro pts z px py pz point i hz hfn
    rw [center_of_mass_to_PMJ_lookup, gd_natCast_eq_ok pts px py pz z hz]
    dsimp only
    rw [hfn]
    dsimp only
    constructor
    · rintro ⟨d, hd⟩
      by_contra hzi
      rw [get?_map_range_none _ _ _ (by omega)] at hd
      simp at hd
    · intro hiz
      rw [get?_map_range _ _ _ (by omega)]
      exact ⟨_, rfl⟩

/-- Witness for C8: at the example centerline with reference index 3 the
lookup for query `(0,0,1.4)` is in bounds, matching nearest index 1 ≤ 3. -/
theorem C8_lookup_bounds_witness :
    (∃ d, center_of_mass_to_PMJ_lookup pts4 ((3 : ℕ) : ℤ) 1 1 1 (0, 0, 1.4) =
      .ok d) ↔ 1 ≤ 3 :=
  C8_lookup_bounds.2 pts4 3 1 1 1 (0, 0, 1.4) 1 (by simp [pts4]) fn_pts4_14_eval

/-- C9: with non-negative voxel spacing and an in-range reference index,
every entry of row 0 is non-negative and the row is monotonically
non-increasing in the centerline index, reaching 0 at the reference
index. -/
theorem C9_nonneg_monotone (pts : List (ℝ × ℝ × ℝ)) (z : ℕ) (px py pz : ℝ)
    (hz : z < pts.length) (hpx : 0 ≤ px) (hpy : 0 ≤ py) (hpz : 0 ≤ pz) :
    ∃ row0 row1,
      get_distance_from_pmj pts (z : ℤ) px py pz = .ok (row0, row1) ∧
      (∀ i v, row0.get? i = some v → 0 ≤ v) ∧
      (∀ i j vi vj, i ≤ j → row0.get? i = some vi → row0.get? j = some vj →
        vj ≤ vi) ∧
      row0.get? z = some 0 := by
  refine ⟨_, _, gd_natCast_eq_ok pts px py pz z hz, ?_, ?_, ?_⟩
  · intro i v hv
    by_cases hi : i < z + 1
    · rw [get?_map_range _ _ _ hi] at hv
      have hv' : v = cumDist pts px py pz z i := (Option.some.inj hv).symm
      subst hv'
      rw [cumDist]
      exact Finset.sum_nonneg fun j _ => stepDist_nonneg pts px py pz j
    · rw [get?_map_range_none _ _ _ (by omega)] at hv
      simp at hv
  · intro i j vi vj hij hvi hvj
    have hi : i < z + 1 := by
      by_contra hcon
      rw [get?_map_range_none _ _ _ (by omega)] at hvi
      simp at hvi
    have hj2 : j < z + 1 := by
      by_contra hcon
      rw [get?_map_range_none _ _ _ (by omega)] at hvj
      simp at hvj
    rw [get?_map_range _ _ _ hi] at hvi
    rw [get?_map_range _ _ _ hj2] at hvj
    have hvi' : vi = cumDist pts px py pz z i := (Option.some.inj hvi).symm
    have hvj' : vj = cumDist pts px py pz z j := (Option.some.inj hvj).symm
    subst hvi'
    subst hvj'
    simp only [cumDist]
    apply Finset.sum_le_sum_of_subset_of_nonneg
      (Finset.Ioc_subset_Ioc hij (le_refl z))
    intro t _ _
    exact stepDist_nonneg pts px py pz t
  · rw [get?_map_range _ _ _ (by omega)]
    simp [cumDist]

/-- Witness for C9 at the example centerline with reference index 3 and
unit spacing. -/
theorem C9_nonneg_monotone_witness :
    3 < pts4.length ∧ ∃ row0 row1,
      get_distance_from_pmj pts4 ((3 : ℕ) : ℤ) 1 1 1 = .ok (row0, row1) ∧
      (∀ i v, row0.get? i = some v → 0 ≤ v) ∧
      (∀ i j vi vj, i ≤ j → row0.get? i = some vi → row0.get? j = some vj →
        vj ≤ vi) ∧
      row0.get? 3 = some 0 :=
  ⟨by simp [pts4],
    C9_nonneg_monotone pts4 3 1 1 1 (by simp [pts4]) zero_le_one zero_le_one
      zero_le_one⟩

/-- C10: both functions are pure — the state-passing forms of their calls
leave the centerline array store unchanged, their results are exactly the
pure functions of the inputs, and repeating a call on the resulting store
yields the same outcome (no persistent state between invocations). -/
theorem C10_purity (store : List (ℝ × ℝ × ℝ)) (z_index : ℤ) (px py pz : ℝ)
    (point : ℝ × ℝ × ℝ) :
    (get_distance_from_pmj_call store z_index px py pz).2 = store ∧
    (find_nearest_centerline_index_call point store).2 = store ∧
    (get_distance_from_pmj_call store z_index px py pz).1 =
      get_distance_from_pmj store z_index px py pz ∧
    (find_nearest_centerline_index_call point store).1 =
      find_nearest_centerline_index point store ∧
    get_distance_from_pmj_call
      ((get_distance_from_pmj_call store z_index px py pz).2) z_index px py pz =
      get_distance_from_pmj_call store z_index px py pz ∧
    find_nearest_centerline_index_call point
      ((find_nearest_centerline_index_call point store).2) =
      find_nearest_centerline_index_call point store :=
  ⟨rfl, rfl, rfl, rfl, rfl, rfl⟩

end Rootlets
